import Mathlib

/-!
Verification development for the transcript segment-reconciliation service
(`app.py`).  The Python code is shallowly embedded: strings are `String` /
`List Char`, Python `float` values are modelled exactly as `ℚ` (with a
separate explicit IEEE-754 binary64 model where rounding is what is at
stake), dicts `{"start", "end", "text", "start_seconds"}` become the
structure `Seg`, and fallible code returns `Option`.

ASCII modelling notes, fixed once and for all:
* Python's `\s` / `str.strip()` whitespace is modelled by the six ASCII
  whitespace characters; `\w` by ASCII alphanumerics plus underscore;
  `str.lower()` by ASCII lowercasing.  Every concrete input appearing in a
  theorem below is ASCII, where the model agrees with Python exactly.
* `int(...)` string parsing is modelled as: strip ASCII whitespace, an
  optional single sign, then at least one ASCII digit (Python's underscore
  separators and non-ASCII digits are out of scope).
-/

attribute [local semireducible] Rat.add Rat.sub Rat.mul Rat.inv Rat.ofScientific

namespace App

/-- ASCII model of Python whitespace (the `\s` class and `str.strip`). -/
def isPySpace (c : Char) : Bool :=
  c = ' ' ∨ c = '\t' ∨ c = '\n' ∨ c = '\r' ∨ c = '\x0b' ∨ c = '\x0c'

/-- ASCII model of Python's `\w` word-character class. -/
def isWordChar (c : Char) : Bool :=
  c.isAlphanum ∨ c = '_'

/-- ASCII model of `str.lower`, one character at a time. -/
def lowerChar (c : Char) : Char :=
  if 65 ≤ c.toNat ∧ c.toNat ≤ 90 then Char.ofNat (c.toNat + 32) else c

/-- `str.strip()`: drop leading and trailing whitespace. -/
def pyStripL (l : List Char) : List Char :=
  ((l.dropWhile isPySpace).reverse.dropWhile isPySpace).reverse

/-- `str.strip()` on strings. -/
def pyStrip (s : String) : String :=
  ⟨pyStripL s.data⟩

/-- `re.sub(r"\s+", " ", t)`: every maximal whitespace run becomes one
space.  A run is collapsed by skipping a whitespace character whenever the
next character is whitespace too, then emitting a single `' '`. -/
def collapseWs : List Char → List Char
  | [] => []
  | [c] => if isPySpace c then [' '] else [c]
  | c :: d :: rest =>
    if isPySpace c then
      if isPySpace d then collapseWs (d :: rest)
      else ' ' :: collapseWs (d :: rest)
    else c :: collapseWs (d :: rest)

/-- `normalize` from `app.py` on character lists: lowercase, strip,
delete every character that is neither a word character nor whitespace,
then collapse whitespace runs to a single space. -/
def normalizeL (l : List Char) : List Char :=
  collapseWs ((pyStripL (l.map lowerChar)).filter fun c => isWordChar c ∨ isPySpace c)

/-- `normalize(text)` from `app.py`. -/
def normalize (s : String) : String :=
  ⟨normalizeL s.data⟩

/-- `str.split()` with no argument: split on whitespace runs, returning
the (non-empty) maximal non-whitespace words.  `cur` accumulates the
current word in reverse. -/
def splitWsAux (cur : List Char) : List Char → List (List Char)
  | [] => if cur.isEmpty then [] else [cur.reverse]
  | c :: rest =>
    if isPySpace c then
      if cur.isEmpty then splitWsAux [] rest
      else cur.reverse :: splitWsAux [] rest
    else splitWsAux (c :: cur) rest

/-- `a.split()` on strings. -/
def splitWs (s : String) : List String :=
  (splitWsAux [] s.data).map fun w => ⟨w⟩

/-- The set of whitespace-separated words of a string (`set(a.split())`). -/
def wordSet (s : String) : Finset String :=
  (splitWs s).toFinset

/-- `jaccard(a, b)` from `app.py`: `0` when either word set is empty, else
`len(s1 & s2) / len(s1 | s2)` (Python computes the quotient in binary64;
the exact rational quotient is used here, which agrees with the binary64
one on every comparison against `0.7` appearing in this file). -/
def jaccard (a b : String) : ℚ :=
  let s1 := wordSet a
  let s2 := wordSet b
  if s1 = ∅ ∨ s2 = ∅ then 0
  else ((s1 ∩ s2).card : ℚ) / ((s1 ∪ s2).card : ℚ)

/-- One transcript segment: the dict
`{"start": …, "end": …, "text": …, "start_seconds": …}` built by the
parsers (`end` is spelled `stop`; `start_seconds` is the exact rational
value of the Python float). -/
structure Seg where
  start : String
  stop : String
  text : String
  start_seconds : ℚ
deriving DecidableEq

instance : Inhabited Seg := ⟨⟨"", "", "", 0⟩⟩

/-! ## The four deduplication passes of `nuclear_cleanup` -/

/-- Pass 1 (exact duplicate removal): keep a segment iff its normalized
text is not in the `seen` set; every kept segment's normalized text is
added.  The Python `set` is modelled as the list of values added so far
(only membership is ever queried). -/
def pass1 : List Seg → List String → List Seg
  | [], _ => []
  | s :: rest, seen =>
    if normalize s.text ∈ seen then pass1 rest seen
    else s :: pass1 rest (normalize s.text :: seen)

/-- The loop body of Pass 2: `prev` is `segments[i-1]`, the immediately
preceding segment of the pass's *input* (kept or not); the current segment
is appended iff the Jaccard similarity of the two normalized texts is
`< 0.7`. -/
def adjFilter : Seg → List Seg → List Seg
  | _, [] => []
  | prev, c :: rest =>
    if jaccard (normalize c.text) (normalize prev.text) < 7/10 then
      c :: adjFilter c rest
    else
      adjFilter c rest

/-- Pass 2 (adjacent near-duplicate removal).  `segments[0]` is always
kept; the loop `for i in range(1, len(segments))` compares index `i`
against index `i-1` of the input. -/
def pass2 : List Seg → List Seg
  | [] => []
  | [x] => [x]
  | x :: y :: rest => x :: adjFilter x (y :: rest)

/-- The loop body of Pass 3: `prev` is `segments[i-1]` of the pass's
input; the current segment is appended iff the time gap exceeds `5` or
the normalized texts differ. -/
def timeFilter : Seg → List Seg → List Seg
  | _, [] => []
  | prev, c :: rest =>
    if c.start_seconds - prev.start_seconds > 5 ∨ normalize c.text ≠ normalize prev.text then
      c :: timeFilter c rest
    else
      timeFilter c rest

/-- Pass 3 (time near-duplicate removal), same loop shape as Pass 2. -/
def pass3 : List Seg → List Seg
  | [] => []
  | [x] => [x]
  | x :: y :: rest => x :: timeFilter x (y :: rest)

/-- Python's substring test `a in b` on character lists. -/
def containsSub (a b : List Char) : Bool :=
  (List.range (b.length + 1)).any fun i => (b.drop i).take a.length == a

/-- `a in b` on strings. -/
def strContains (a b : String) : Bool :=
  containsSub a.data b.data

/-- The inner loop of Pass 4 for the segment at index `i` (whose
normalized text is `a`): scanning `enumerate(norms)` in order, the
segment is dropped at the first `j ≠ i` whose normalized text contains
`a` with `len(a) <= len(norms[j])`. -/
def pass4Drops (norms : List String) (i : Nat) (a : String) : Bool :=
  norms.enum.any fun q =>
    q.1 ≠ i ∧ strContains a q.2 ∧ a.length ≤ q.2.length

/-- Pass 4 (substring / partial-duplicate removal): `norms` is the list of
normalized texts of the remaining segments; segment `i` is kept iff no
other segment's normalized text contains it (at equal-or-greater length). -/
def pass4 (segments : List Seg) : List Seg :=
  let norms := segments.map fun s => normalize s.text
  segments.enum.filterMap fun p =>
    if pass4Drops norms p.1 (normalize p.2.text) then none else some p.2

/-- `nuclear_cleanup` from `app.py`: the four passes in sequence (the
guard `if not segments: return []` is kept verbatim). -/
def nuclear_cleanup (segments : List Seg) : List Seg :=
  if segments.isEmpty then []
  else pass4 (pass3 (pass2 (pass1 segments [])))

/-! ## Timestamp codec -/

/-- `s.split(sep)` for a one-character separator: split at every
occurrence, keeping empty pieces (`"a..b".split(".") == ["a", "", "b"]`). -/
def splitOnChar (sep : Char) : List Char → List (List Char)
  | [] => [[]]
  | c :: rest =>
    if c = sep then [] :: splitOnChar sep rest
    else
      match splitOnChar sep rest with
      | [] => [[c]]
      | h :: t => (c :: h) :: t

/-- Digit value of an ASCII digit character. -/
def digitVal (c : Char) : Nat := c.toNat - 48

/-- Value of a non-empty all-digit character list. -/
def digitsVal (l : List Char) : Nat :=
  l.foldl (fun acc c => 10 * acc + digitVal c) 0

/-- Model of Python `int(str)`: strip whitespace, optional single sign,
then at least one digit; any other shape raises (here: `none`). -/
def pyIntOpt (l : List Char) : Option Int :=
  let t := pyStripL l
  if t.headD ' ' = '-' then
    if t.tail ≠ [] ∧ t.tail.all Char.isDigit then some (-(digitsVal t.tail : Int)) else none
  else if t.headD ' ' = '+' then
    if t.tail ≠ [] ∧ t.tail.all Char.isDigit then some (digitsVal t.tail : Int) else none
  else
    if t ≠ [] ∧ t.all Char.isDigit then some (digitsVal t : Int) else none

/-- The `try` block of `timestamp_to_seconds`: after `ts.replace(",", ".")`,
split on `"."`, take the first piece, split it on `":"`; two pieces parse
as `M:S` with `h = 0`, one piece raises (`IndexError`), three or more
parse the first three; the millisecond field is the *last* `"."`-piece
when a `"."` occurs, else `0`.  Any failing `int(...)` raises, making the
whole block return `none`. -/
def parseTS (ts : String) : Option (Int × Int × Int × Int) := do
  let l := ts.data.map fun c => if c = ',' then '.' else c
  let dotPieces := splitOnChar '.' l
  let parts := splitOnChar ':' (dotPieces.headD [])
  let (h, m, s) ←
    match parts with
    | [p0, p1] => do
      let m ← pyIntOpt p0
      let s ← pyIntOpt p1
      pure ((0 : Int), m, s)
    | p0 :: p1 :: p2 :: _ => do
      let h ← pyIntOpt p0
      let m ← pyIntOpt p1
      let s ← pyIntOpt p2
      pure (h, m, s)
    | _ => none
  let millis ←
    if l.contains '.' then pyIntOpt (dotPieces.getLastD [])
    else pure 0
  pure (h, m, s, millis)

/-- `timestamp_to_seconds(ts)` from `app.py` in exact rational arithmetic:
`h*3600 + m*60 + s + millis/1000` on success, `0.0` when the `try` block
raises. -/
def timestamp_to_seconds (ts : String) : ℚ :=
  match parseTS ts with
  | some (h, m, s, millis) => (h : ℚ) * 3600 + (m : ℚ) * 60 + (s : ℚ) + (millis : ℚ) / 1000
  | none => 0

/-! ## The timestamp formatter `fmt` (from `_yta_to_segments`) -/

/-- Python `int(float)`: truncation toward zero. -/
def pyTrunc (q : ℚ) : Int :=
  if q < 0 then -⌊-q⌋ else ⌊q⌋

/-- Python float `%`: result carries the divisor's sign,
`x % y = x - y * floor(x / y)`.  This value is exactly representable in
binary64 for all inputs, so the exact rational formula is also the float
model. -/
def pyMod (x y : ℚ) : ℚ :=
  x - y * ⌊x / y⌋

/-- Decimal digits of a natural number, most significant first
(structurally fuelled so that the kernel can evaluate it; 200 digits of
fuel cover every number below `10 ^ 200`). -/
def natDigitsFuel : Nat → Nat → List Char
  | 0, _ => []
  | fuel + 1, n =>
    if n < 10 then [Nat.digitChar n]
    else natDigitsFuel fuel (n / 10) ++ [Nat.digitChar (n % 10)]

/-- Decimal digits of a natural number, most significant first. -/
def natDigitsL (n : Nat) : List Char :=
  natDigitsFuel 200 n

/-- Pad a character list on the left to width `w`. -/
def leftPad (w : Nat) (c : Char) (l : List Char) : List Char :=
  List.replicate (w - l.length) c ++ l

/-- Python `f"{n:0wd}"`: zero-padded decimal rendering of an integer, the
sign counting toward the width. -/
def fmtPad (w : Nat) (n : Int) : List Char :=
  if n < 0 then '-' :: leftPad (w - 1) '0' (natDigitsL n.natAbs)
  else leftPad w '0' (natDigitsL n.toNat)

/-- The nested `fmt(sec)` of `_yta_to_segments`, in exact rational
arithmetic:
`h = int(sec // 3600)`, `m = int((sec % 3600) // 60)`, `s = int(sec % 60)`,
`ms = int((sec - int(sec)) * 1000)`, rendered as
`f"{h:02d}:{m:02d}:{s:02d},{ms:03d}"`.  Float `//` yields the exact floor
for all magnitudes occurring here, `%` is exact (see `pyMod`), and
`sec - int(sec)` is exact in binary64, so exact rationals model every step
except the final `* 1000`, which `fmtFloat` below additionally rounds. -/
def fmtQ (sec : ℚ) : String :=
  let h : Int := ⌊sec / 3600⌋
  let m : Int := ⌊pyMod sec 3600 / 60⌋
  let s : Int := pyTrunc (pyMod sec 60)
  let ms : Int := pyTrunc ((sec - (pyTrunc sec : ℚ)) * 1000)
  ⟨fmtPad 2 h ++ ':' :: fmtPad 2 m ++ ':' :: fmtPad 2 s ++ ',' :: fmtPad 3 ms⟩

/-- The canonical zero-padded `HH:MM:SS,mmm` string with the given field
values. -/
def renderTs (h m s ms : Nat) : String :=
  ⟨fmtPad 2 (h : Int) ++ ':' :: fmtPad 2 (m : Int) ++ ':' :: fmtPad 2 (s : Int) ++
    ',' :: fmtPad 3 (ms : Int)⟩

/-! ## An exact model of IEEE-754 binary64 rounding

Used to settle the round-trip claim against the arithmetic the Python code
actually performs.  Only strictly positive normal-range values reach
`roundD` in this file, so subnormals, overflow and negatives need no
modelling (nonpositive inputs are mapped to `0`). -/

/-- Fuelled base-2 logarithm (`Nat.log2` is defined by well-founded
recursion, which the kernel will not unfold; 400 steps of fuel cover every
number below `2 ^ 400`). -/
def log2b : Nat → Nat → Nat
  | 0, _ => 0
  | fuel + 1, n => if n < 2 then 0 else 1 + log2b fuel (n / 2)

/-- `⌊log₂ q⌋` for `2 ^ (-200) ≤ q < 2 ^ 200`. -/
def log2floorQ (q : ℚ) : Int :=
  (log2b 400 (⌊q * (2:ℚ) ^ (200 : Nat)⌋.toNat) : Int) - 200

/-- Round to the nearest integer, ties to even. -/
def roundHalfEven (q : ℚ) : Int :=
  if q - ⌊q⌋ < 1/2 then ⌊q⌋
  else if 1/2 < q - ⌊q⌋ then ⌊q⌋ + 1
  else if ⌊q⌋ % 2 = 0 then ⌊q⌋ else ⌊q⌋ + 1

/-- Round a positive rational to the nearest binary64 value (53-bit
significand, round half to even): scale into `[2^52, 2^53)`, round, scale
back. -/
def roundD (q : ℚ) : ℚ :=
  if q ≤ 0 then 0
  else
    let e := log2floorQ q
    (roundHalfEven (q * (2:ℚ) ^ (52 - e)) : ℚ) * (2:ℚ) ^ (e - 52)

/-- `timestamp_to_seconds` under binary64 arithmetic: the integer part
`h*3600 + m*60 + s` is exact Python `int` arithmetic, `millis / 1000.0`
is one correctly rounded division, and adding the integer (exactly
converted, its magnitude being far below `2^53`) rounds once more. -/
def tsFloat (ts : String) : ℚ :=
  match parseTS ts with
  | some (h, m, s, millis) =>
    roundD (((h * 3600 + m * 60 + s : Int) : ℚ) + roundD ((millis : ℚ) / 1000))
  | none => 0

/-- `fmt(sec)` under binary64 arithmetic: identical to `fmtQ` except that
the product `(sec - int(sec)) * 1000` is rounded to binary64 before
truncation (all other steps are exact in binary64, see `fmtQ`). -/
def fmtFloat (sec : ℚ) : String :=
  let h : Int := ⌊sec / 3600⌋
  let m : Int := ⌊pyMod sec 3600 / 60⌋
  let s : Int := pyTrunc (pyMod sec 60)
  let ms : Int := pyTrunc (roundD ((sec - (pyTrunc sec : ℚ)) * 1000))
  ⟨fmtPad 2 h ++ ':' :: fmtPad 2 m ++ ':' :: fmtPad 2 s ++ ',' :: fmtPad 3 ms⟩

/-! ## Subtitle format parsers (`parse_srt`, `parse_vtt`, `_yta_to_segments`)

The regular expressions of the source are compiled by hand into
deterministic scanners; each is noted at its definition.  The sort that
ends every parser — Python's stable `list.sort(key=lambda x:
x["start_seconds"])` — is modelled as `List.insertionSort` by the `≤`
relation on `start_seconds`, which is exactly the stable sort by that
key. -/

/-- Key order used by every `segments.sort(key=lambda x: x["start_seconds"])`. -/
def startLe (a b : Seg) : Prop :=
  a.start_seconds ≤ b.start_seconds

instance : DecidableRel startLe := fun a b =>
  inferInstanceAs (Decidable (a.start_seconds ≤ b.start_seconds))

instance : IsTotal Seg startLe :=
  ⟨fun a b => le_total a.start_seconds b.start_seconds⟩

instance : IsTrans Seg startLe :=
  ⟨fun _ _ _ h1 h2 => le_trans h1 h2⟩

/-- Python `str.splitlines` boundary characters other than `'\r'`
(which is handled separately so that `"\r\n"` counts as one break). -/
def isLineBoundary (c : Char) : Bool :=
  c = '\n' ∨ c = '\x0b' ∨ c = '\x0c' ∨ c = '\x1c' ∨ c = '\x1d' ∨ c = '\x1e'

/-- `str.splitlines` scanner; `cur` is the current line in reverse.  A
trailing boundary ends the last line without starting an empty one. -/
def splitLinesAux (cur : List Char) : List Char → List (List Char)
  | [] => [cur.reverse]
  | '\r' :: '\n' :: rest => cur.reverse :: (if rest.isEmpty then [] else splitLinesAux [] rest)
  | '\r' :: rest => cur.reverse :: (if rest.isEmpty then [] else splitLinesAux [] rest)
  | c :: rest =>
    if isLineBoundary c then cur.reverse :: (if rest.isEmpty then [] else splitLinesAux [] rest)
    else splitLinesAux (c :: cur) rest

/-- `block.splitlines()` (`"".splitlines() == []`). -/
def splitLines (l : List Char) : List (List Char) :=
  if l.isEmpty then [] else splitLinesAux [] l

/-- Index of the last `'\n'` in `run` (meaningful only when one occurs). -/
def lastNlIdx (run : List Char) : Nat :=
  run.length - 1 - List.findIdx (fun d => d = '\n') run.reverse

/-- `re.split(r"\n\s*\n", content)` scanner.  A separator match starts at
a `'\n'` whose following whitespace run contains another `'\n'`, and
greedily extends through the *last* `'\n'` of that run (`\s*` is greedy
and the match must end with `\n`); scanning resumes after the match.
`acc` is the current piece in reverse; empty pieces are kept, as
`re.split` keeps them. -/
def blockSplitAux (acc : List Char) : List Char → List (List Char)
  | [] => [acc.reverse]
  | c :: rest =>
    if c = '\n' ∧ (rest.takeWhile isPySpace).contains '\n' then
      acc.reverse :: blockSplitAux [] (rest.drop (lastNlIdx (rest.takeWhile isPySpace) + 1))
    else blockSplitAux (c :: acc) rest
termination_by l => l.length
decreasing_by
  all_goals simp only [List.length_drop, List.length_cons]
  all_goals omega

/-- `re.split(r"\n\s*\n", l)`. -/
def blockSplit (l : List Char) : List (List Char) :=
  blockSplitAux [] l

/-- `\d{n}` at the current position: exactly `n` digits. -/
def takeDigits (n : Nat) (l : List Char) : Option (List Char × List Char) :=
  let ds := l.take n
  if ds.length = n ∧ ds.all Char.isDigit then some (ds, l.drop n) else none

/-- A single-character class at the current position. -/
def expectChar (p : Char → Bool) : List Char → Option (Char × List Char)
  | [] => none
  | c :: rest => if p c then some (c, rest) else none

/-- One capture group `(\d{2}:\d{2}:\d{2}[,.]\d{3})` anchored at the
current position; returns the matched text and the remainder. -/
def matchTsGroup (l : List Char) : Option (List Char × List Char) := do
  let (d1, l) ← takeDigits 2 l
  let (c1, l) ← expectChar (fun c => c = ':') l
  let (d2, l) ← takeDigits 2 l
  let (c2, l) ← expectChar (fun c => c = ':') l
  let (d3, l) ← takeDigits 2 l
  let (sep, l) ← expectChar (fun c => c = ',' ∨ c = '.') l
  let (d4, l) ← takeDigits 3 l
  pure (d1 ++ c1 :: d2 ++ c2 :: d3 ++ sep :: d4, l)

/-- `\s*-->\s*`: the greedy `\s*` is equivalent to consuming the maximal
whitespace run, since `'-'` is not whitespace. -/
def matchArrow (l : List Char) : Option (List Char) := do
  let l := l.dropWhile isPySpace
  let (_, l) ← expectChar (fun c => c = '-') l
  let (_, l) ← expectChar (fun c => c = '-') l
  let (_, l) ← expectChar (fun c => c = '>') l
  pure (l.dropWhile isPySpace)

/-- The full timestamp-line pattern anchored at the current position,
returning the two groups. -/
def matchSrtTsAt (l : List Char) : Option (List Char × List Char) := do
  let (g1, l) ← matchTsGroup l
  let l ← matchArrow l
  let (g2, _) ← matchTsGroup l
  pure (g1, g2)

/-- `re.search` of the timestamp-line pattern: first position (leftmost)
at which it matches. -/
def searchSrtTs : List Char → Option (List Char × List Char)
  | [] => none
  | c :: rest =>
    match matchSrtTsAt (c :: rest) with
    | some g => some g
    | none => searchSrtTs rest

/-- One capture group of the short VTT form `(\d{2}:\d{2}[.,]\d{3})`. -/
def matchShortGroup (l : List Char) : Option (List Char × List Char) := do
  let (d1, l) ← takeDigits 2 l
  let (c1, l) ← expectChar (fun c => c = ':') l
  let (d2, l) ← takeDigits 2 l
  let (sep, l) ← expectChar (fun c => c = '.' ∨ c = ',') l
  let (d3, l) ← takeDigits 3 l
  pure (d1 ++ c1 :: d2 ++ sep :: d3, l)

/-- The short VTT timestamp-line pattern anchored at the current position. -/
def matchShortTsAt (l : List Char) : Option (List Char × List Char) := do
  let (g1, l) ← matchShortGroup l
  let l ← matchArrow l
  let (g2, _) ← matchShortGroup l
  pure (g1, g2)

/-- `re.search` of the short VTT pattern. -/
def searchShortTs : List Char → Option (List Char × List Char)
  | [] => none
  | c :: rest =>
    match matchShortTsAt (c :: rest) with
    | some g => some g
    | none => searchShortTs rest

/-- `" ".join(...)`. -/
def joinSpace (ls : List (List Char)) : List Char :=
  List.intercalate [' '] ls

/-- The characters of the separator token `-->`. -/
def arrowChars : List Char :=
  ['-', '-', '>']

/-- `[ln.strip() for ln in block.splitlines() if ln.strip()]`. -/
def blockLines (block : List Char) : List (List Char) :=
  ((splitLines block).map pyStripL).filter fun ln => ¬ln.isEmpty

/-- `start.replace(".", ",")`. -/
def replDotComma (l : List Char) : List Char :=
  l.map fun c => if c = '.' then ',' else c

/-- The segment dict appended by both parsers: comma-normalized `start`
and `end`, the text, and `start_seconds` computed from the raw (pre
normalization) start string. -/
def mkSeg (startG endG text : List Char) : Seg :=
  ⟨⟨replDotComma startG⟩, ⟨replDotComma endG⟩, ⟨text⟩, timestamp_to_seconds ⟨startG⟩⟩

/-- One block of `parse_srt`: skip blocks of fewer than two non-empty
lines; the timestamp line is line 2 when line 1 is a bare integer index,
there are at least three lines and line 2 contains `-->`, else line 1
when it contains `-->`; blocks without a full timestamp match or with
empty joined text are skipped. -/
def srtBlockSeg (block : List Char) : Option Seg :=
  let lines := blockLines block
  if lines.length < 2 then none
  else
    let sel : Option (List Char × Nat) :=
      if (¬(lines.headD []).isEmpty ∧ (lines.headD []).all Char.isDigit) ∧
          3 ≤ lines.length ∧ containsSub arrowChars (lines.getD 1 []) then
        some (lines.getD 1 [], 2)
      else if containsSub arrowChars (lines.headD []) then some (lines.headD [], 1)
      else none
    match sel with
    | none => none
    | some (tsLine, idx) =>
      match searchSrtTs tsLine with
      | none => none
      | some (g1, g2) =>
        let text := pyStripL (joinSpace (lines.drop idx))
        if text.isEmpty then none else some (mkSeg g1 g2 text)

/-- `parse_srt` before its final sort: blocks of the stripped content in
document order. -/
def parse_srt_raw (content : String) : List Seg :=
  (blockSplit (pyStripL content.data)).filterMap srtBlockSeg

/-- `parse_srt(content)` from `app.py`. -/
def parse_srt (content : String) : List Seg :=
  List.insertionSort startLe (parse_srt_raw content)

/-- Model of the BOM removal `re.sub` at the top of `parse_vtt`: drop one
leading U+FEFF. -/
def stripBom : List Char → List Char
  | '\uFEFF' :: rest => rest
  | l => l

/-- `re.sub(r"^WEBVTT.*\n", "", content, flags=re.IGNORECASE)`: when the
content starts with `WEBVTT` (any case) and a `'\n'` follows, remove
everything through the first `'\n'` (as `.` cannot cross it); otherwise
leave the content unchanged. -/
def stripWebVtt (l : List Char) : List Char :=
  if (l.take 6).map lowerChar = "webvtt".data ∧ (l.drop 6).contains '\n' then
    ((l.drop 6).dropWhile fun c => ¬c = '\n').tail
  else l

/-- `re.sub(r"<[^>]+>", "", text)` scanner: at each `'<'`, if at least
one non-`'>'` character is followed by a `'>'`, drop through that first
`'>'`; otherwise the `'<'` is ordinary text. -/
def stripTags : List Char → List Char
  | [] => []
  | '<' :: rest =>
    let inner := rest.takeWhile fun c => ¬c = '>'
    if ¬inner.isEmpty ∧ inner.length < rest.length then
      stripTags (rest.drop (inner.length + 1))
    else '<' :: stripTags rest
  | c :: rest => c :: stripTags rest
termination_by l => l.length
decreasing_by
  all_goals simp only [List.length_drop, List.length_cons]
  all_goals omega

/-- One block of `parse_vtt`: the timestamp line is line 1 if it contains
`-->`, else line 2; the full pattern is tried first, then the short
`MM:SS` form with an `00:` hour prefixed to both groups; the joined text
is stripped, then inline tags are removed, and empty text skips the
block. -/
def vttBlockSeg (block : List Char) : Option Seg :=
  let lines := blockLines block
  if lines.isEmpty then none
  else
    let tsIdx : Option Nat :=
      if containsSub arrowChars (lines.headD []) then some 0
      else if 1 < lines.length ∧ containsSub arrowChars (lines.getD 1 []) then some 1
      else none
    match tsIdx with
    | none => none
    | some i =>
      let tsLine := lines.getD i []
      let groups : Option (List Char × List Char) :=
        match searchSrtTs tsLine with
        | some g => some g
        | none =>
          match searchShortTs tsLine with
          | some (g1, g2) => some ('0' :: '0' :: ':' :: g1, '0' :: '0' :: ':' :: g2)
          | none => none
      match groups with
      | none => none
      | some (g1, g2) =>
        let text := stripTags (pyStripL (joinSpace (lines.drop (i + 1))))
        if text.isEmpty then none else some (mkSeg g1 g2 text)

/-- `parse_vtt` before its final sort. -/
def parse_vtt_raw (content : String) : List Seg :=
  (blockSplit (pyStripL (stripWebVtt (stripBom content.data)))).filterMap vttBlockSeg

/-- `parse_vtt(content)` from `app.py`. -/
def parse_vtt (content : String) : List Seg :=
  List.insertionSort startLe (parse_vtt_raw content)

/-- `_yta_to_segments(chunks)` from `app.py`: each chunk carries a start,
a duration and a text; `start`/`end` strings come from `fmt`, and
`start_seconds` is the raw start; the result is sorted by the same key. -/
def ytaToSegments (chunks : List (ℚ × ℚ × String)) : List Seg :=
  List.insertionSort startLe
    (chunks.map fun c => ⟨fmtQ c.1, fmtQ (c.1 + c.2.1), c.2.2, c.1⟩)

/-! ## The `/transcript` endpoint's authorization gate -/

/-- The first statement of the `/transcript` handler:
`if not PY_SERVICE_KEY or x_api_key != PY_SERVICE_KEY: raise
HTTPException(status_code=401, ...)`.  `py_service_key` is the value of
the `PY_SERVICE_KEY` environment variable (defaulting to `""` when
unset); `x_api_key` is the request's `x-api-key` header, `none` when the
header is absent.  The result is the HTTP error raised, or `ok` when the
handler proceeds. -/
def transcriptAuth (py_service_key : String) (x_api_key : Option String) : Except Nat Unit :=
  if py_service_key = "" ∨ x_api_key ≠ some py_service_key then Except.error 401
  else Except.ok ()

/-! ## Concrete segments used in counterexamples and witnesses -/

/-- A segment with the given text and start time (the timestamp strings
play no role in the deduplication passes). -/
def segK (t : String) (q : ℚ) : Seg :=
  ⟨"00:00:00,000", "00:00:00,000", t, q⟩

end App

namespace App

/-! ## General lemmas about the embedded operations -/

theorem adjFilter_sublist (p : Seg) (l : List Seg) : (adjFilter p l).Sublist l := by
  induction l generalizing p with
  | nil => simp [adjFilter]
  | cons c rest ih =>
    rw [adjFilter]
    split
    · exact (ih c).cons_cons c
    · exact (ih c).cons c

theorem timeFilter_sublist (p : Seg) (l : List Seg) : (timeFilter p l).Sublist l := by
  induction l generalizing p with
  | nil => simp [timeFilter]
  | cons c rest ih =>
    rw [timeFilter]
    split
    · exact (ih c).cons_cons c
    · exact (ih c).cons c

theorem pass1_sublist (l : List Seg) (seen : List String) : (pass1 l seen).Sublist l := by
  induction l generalizing seen with
  | nil => simp [pass1]
  | cons s rest ih =>
    rw [pass1]
    split
    · exact (ih seen).cons s
    · exact (ih _).cons_cons s

theorem pass2_sublist (l : List Seg) : (pass2 l).Sublist l := by
  match l with
  | [] => simp [pass2]
  | [x] => simp [pass2]
  | x :: y :: rest => exact (adjFilter_sublist x (y :: rest)).cons_cons x

theorem pass3_sublist (l : List Seg) : (pass3 l).Sublist l := by
  match l with
  | [] => simp [pass3]
  | [x] => simp [pass3]
  | x :: y :: rest => exact (timeFilter_sublist x (y :: rest)).cons_cons x

theorem enumFrom_filterMap_sublist {α : Type} (f : Nat → α → Option Bool) (l : List α) (n : Nat) :
    (List.filterMap (fun p => if (f p.1 p.2).getD true then none else some p.2)
      (List.enumFrom n l)).Sublist l := by
  induction l generalizing n with
  | nil => simp
  | cons a rest ih =>
    cases hb : (f n a).getD true with
    | false =>
      simp only [List.enumFrom, List.filterMap_cons, hb, Bool.false_eq_true, if_false]
      exact (ih (n + 1)).cons_cons a
    | true =>
      simp only [List.enumFrom, List.filterMap_cons, hb, if_true]
      exact (ih (n + 1)).cons a

theorem pass4_sublist (l : List Seg) : (pass4 l).Sublist l := by
  have h := enumFrom_filterMap_sublist
    (fun i s => some (pass4Drops (l.map fun s => normalize s.text) i (normalize s.text))) l 0
  simpa [pass4, List.enum] using h

theorem nuclear_cleanup_sublist (l : List Seg) : (nuclear_cleanup l).Sublist l := by
  rw [nuclear_cleanup]
  split
  · exact List.nil_sublist l
  · exact (((pass4_sublist _).trans (pass3_sublist _)).trans (pass2_sublist _)).trans
      (pass1_sublist l [])

end App

namespace App

theorem pass1_norms_nodup (l : List Seg) (seen : List String) :
    ((pass1 l seen).map fun s => normalize s.text).Nodup ∧
      ∀ n ∈ (pass1 l seen).map fun s => normalize s.text, n ∉ seen := by
  induction l generalizing seen with
  | nil => simp [pass1]
  | cons s rest ih =>
    rw [pass1]
    split
    · exact ih seen
    · rename_i hmem
      obtain ⟨hn, hf⟩ := ih (normalize s.text :: seen)
      refine ⟨?_, ?_⟩
      · simp only [List.map_cons, List.nodup_cons]
        refine ⟨fun hc => ?_, hn⟩
        exact (hf _ hc) (List.mem_cons_self _ _)
      · intro n hnmem
        simp only [List.map_cons, List.mem_cons] at hnmem
        rcases hnmem with rfl | hn2
        · exact hmem
        · exact fun hseen => (hf n hn2) (List.mem_cons_of_mem _ hseen)

theorem adjFilter_eq_zip (l : List Seg) (p : Seg) :
    adjFilter p l = (l.zip (p :: l)).filterMap fun cp =>
      if jaccard (normalize cp.1.text) (normalize cp.2.text) < 7/10
      then some cp.1 else none := by
  induction l generalizing p with
  | nil => simp [adjFilter]
  | cons c rest ih =>
    rw [adjFilter, List.zip_cons_cons, List.filterMap_cons]
    split
    · rw [ih c]
    · rw [ih c]

theorem timeFilter_eq_zip (l : List Seg) (p : Seg) :
    timeFilter p l = (l.zip (p :: l)).filterMap fun cp =>
      if cp.1.start_seconds - cp.2.start_seconds > 5 ∨
          normalize cp.1.text ≠ normalize cp.2.text
      then some cp.1 else none := by
  induction l generalizing p with
  | nil => simp [timeFilter]
  | cons c rest ih =>
    rw [timeFilter, List.zip_cons_cons, List.filterMap_cons]
    split
    · rw [ih c]
    · rw [ih c]

end App

namespace App

/-! ## Claim theorems -/

/-- C8: for every input segment sequence, the deduplication pipeline's
output is a subsequence of the input: every output segment appears in the
input unmodified, relative order is preserved, and the output length is at
most the input length. -/
theorem nuclear_cleanup_subsequence (segments : List Seg) :
    (nuclear_cleanup segments).Sublist segments ∧
      (nuclear_cleanup segments).length ≤ segments.length :=
  ⟨nuclear_cleanup_sublist segments, (nuclear_cleanup_sublist segments).length_le⟩

/-- C9: the normalized texts of the pipeline's output segments are
pairwise distinct: Pass 1 keeps one segment per normalized text, and
Passes 2 to 4 only select subsets. -/
theorem nuclear_cleanup_norms_nodup (segments : List Seg) :
    ((nuclear_cleanup segments).map fun s => normalize s.text).Nodup := by
  rw [nuclear_cleanup]
  split
  · simp
  · have h1 := (pass1_norms_nodup segments []).1
    have hsub : (pass4 (pass3 (pass2 (pass1 segments [])))).Sublist (pass1 segments []) :=
      ((pass4_sublist _).trans (pass3_sublist _)).trans (pass2_sublist _)
    exact List.Nodup.sublist (List.Sublist.map _ hsub) h1

/-- C10: when the configured `PY_SERVICE_KEY` is the empty string, the
`/transcript` endpoint raises HTTP 401 for every request, whatever the
supplied `x-api-key` header is (absent, empty, or anything else), because
`not PY_SERVICE_KEY` is then true. -/
theorem transcript_rejects_when_key_unset (x_api_key : Option String) :
    transcriptAuth "" x_api_key = Except.error 401 := by
  simp [transcriptAuth]

/-- C6: `timestamp_to_seconds` never raises: for every input string it
either parses fields `h, m, s, millis` and returns
`h*3600 + m*60 + s + millis/1000`, or the parse fails and it returns
exactly `0.0`. -/
theorem timestamp_to_seconds_total_spec (ts : String) :
    (∃ h m s millis, parseTS ts = some (h, m, s, millis) ∧
        timestamp_to_seconds ts =
          (h : ℚ) * 3600 + (m : ℚ) * 60 + (s : ℚ) + (millis : ℚ) / 1000) ∨
      (parseTS ts = none ∧ timestamp_to_seconds ts = 0) := by
  rcases hp : parseTS ts with _ | ⟨h, m, s, millis⟩
  · exact Or.inr ⟨rfl, by simp [timestamp_to_seconds, hp]⟩
  · exact Or.inl ⟨h, m, s, millis, rfl, by simp [timestamp_to_seconds, hp]⟩

/-- C1 is false of the code: Pass 2 compares each segment with the
immediately preceding *input* segment, not the preceding *kept* one.  On
the input below with normalized texts `"b a c"`, `"a b c d"`,
`"a c d e b"`, the second segment is dropped (similarity `3/4 ≥ 0.7`
against the first), so the third segment's preceding kept segment is the
first one, with similarity `3/5 < 0.7`; the claim then requires the third
segment to be kept, but Pass 2 drops it (similarity `4/5 ≥ 0.7` against
the dropped second segment). -/
theorem pass2_kept_predecessor_counterexample :
    pass2 [segK "b a c" 0, segK "a b c d" 10, segK "a c d e b" 20] = [segK "b a c" 0] ∧
      jaccard (normalize "a c d e b") (normalize "b a c") < 7/10 := by
  decide

/-- C1 amended: in Pass 2, a segment after the first is kept iff the
Jaccard similarity between its normalized text and the normalized text of
the immediately preceding *input* segment (kept or not) is `< 0.7`.
`segments.tail.zip segments` pairs each `segments[i]` (`i ≥ 1`) with
`segments[i-1]`. -/
theorem pass2_adjacent_input_characterization (segments : List Seg)
    (h : 2 ≤ segments.length) :
    pass2 segments = segments.take 1 ++
      ((segments.tail.zip segments).filterMap fun cp =>
        if jaccard (normalize cp.1.text) (normalize cp.2.text) < 7/10
        then some cp.1 else none) := by
  match segments with
  | [] => simp at h
  | [x] => simp at h
  | x :: y :: rest =>
    rw [pass2, adjFilter_eq_zip]
    rfl

theorem pass2_adjacent_input_characterization_witness :
    2 ≤ ([segK "a" 0, segK "a" 1] : List Seg).length ∧
      pass2 [segK "a" 0, segK "a" 1] = [segK "a" 0] := by
  refine ⟨by decide, ?_⟩
  rw [pass2_adjacent_input_characterization [segK "a" 0, segK "a" 1] (by decide)]
  decide

/-- C2 is false of the code: Pass 3 compares each segment with the
immediately preceding *input* segment, not the preceding *kept* one, and
uses the signed difference `cur - prev <= 5`, not a distance of at most
`5.0`.  First input: three segments with equal normalized text at times
`0, 4, 8`; the second is dropped (gap 4, equal text), so the third's
preceding kept segment is the first, at gap `8 > 5` — per the claim it
must be kept, yet the code drops it (gap 4 to the dropped second).
Second input: equal texts at times `100, 0`; the difference from the
preceding kept segment has magnitude `100 > 5`, so per the claim the
second segment is kept, yet the code drops it (`0 - 100 ≤ 5`). -/
theorem pass3_kept_predecessor_counterexample :
    pass3 [segK "x" 0, segK "x" 4, segK "x" 8] = [segK "x" 0] ∧
      (8 : ℚ) - 0 > 5 ∧
      pass3 [segK "y" 100, segK "y" 0] = [segK "y" 100] ∧
      (100 : ℚ) - 0 > 5 := by
  decide

/-- C2 amended: in Pass 3, a segment after the first is dropped iff the
signed difference between its `startSeconds` and the immediately
preceding *input* segment's `startSeconds` is at most `5.0` and the two
normalized texts are equal; equivalently it is kept iff the difference
exceeds `5` or the texts differ. -/
theorem pass3_adjacent_input_characterization (segments : List Seg)
    (h : 2 ≤ segments.length) :
    pass3 segments = segments.take 1 ++
      ((segments.tail.zip segments).filterMap fun cp =>
        if cp.1.start_seconds - cp.2.start_seconds > 5 ∨
            normalize cp.1.text ≠ normalize cp.2.text
        then some cp.1 else none) := by
  match segments with
  | [] => simp at h
  | [x] => simp at h
  | x :: y :: rest =>
    rw [pass3, timeFilter_eq_zip]
    rfl

theorem pass3_adjacent_input_characterization_witness :
    2 ≤ ([segK "x" 0, segK "x" 4] : List Seg).length ∧
      pass3 [segK "x" 0, segK "x" 4] = [segK "x" 0] := by
  refine ⟨by decide, ?_⟩
  rw [pass3_adjacent_input_characterization [segK "x" 0, segK "x" 4] (by decide)]
  decide

/-- C3 is false of the code: the pipeline is not idempotent.  On segments
with normalized texts `"w x y z"`, `"q"`, `"x y z w q"`, the first run's
Pass 4 drops `"q"` (a substring of `"x y z w q"`), leaving two segments
whose similarity is `4/5 ≥ 0.7`; a second run's Pass 2 therefore drops
the last segment, so running the pipeline on its own output shrinks it. -/
theorem nuclear_cleanup_not_idempotent :
    nuclear_cleanup [segK "w x y z" 0, segK "q" 1, segK "x y z w q" 2] =
        [segK "w x y z" 0, segK "x y z w q" 2] ∧
      nuclear_cleanup [segK "w x y z" 0, segK "x y z w q" 2] = [segK "w x y z" 0] ∧
      nuclear_cleanup (nuclear_cleanup
          [segK "w x y z" 0, segK "q" 1, segK "x y z w q" 2]) ≠
        nuclear_cleanup [segK "w x y z" 0, segK "q" 1, segK "x y z w q" 2] := by
  refine ⟨by decide, by decide, ?_⟩
  decide

/-- C3 amended: applying the pipeline to its own output yields a
subsequence of that output (a second run never reorders or edits
segments, but it can remove more; equality does not hold in general). -/
theorem nuclear_cleanup_self_sublist (segments : List Seg) :
    (nuclear_cleanup (nuclear_cleanup segments)).Sublist (nuclear_cleanup segments) :=
  nuclear_cleanup_sublist _

/-- C4 is false of the code: `normalize` strips *before* removing
punctuation, so removing a punctuation character can expose fresh
trailing (or leading) whitespace that survives; `normalize("a !") = "a "`
but `normalize("a ") = "a"`. -/
theorem normalize_not_idempotent :
    normalize (normalize "a !") ≠ normalize "a !" := by
  decide

end App

namespace App

/-! ## Structure of normalized strings (for the C4 analysis) -/

theorem toNat_ofNat_small (n : Nat) (h : n < 55296) : (Char.ofNat n).toNat = n := by
  unfold Char.ofNat
  rw [dif_pos (Or.inl h)]
  rfl

theorem lowerChar_lowerChar (c : Char) : lowerChar (lowerChar c) = lowerChar c := by
  unfold lowerChar
  by_cases h : 65 ≤ c.toNat ∧ c.toNat ≤ 90
  · rw [if_pos h]
    have ht : (Char.ofNat (c.toNat + 32)).toNat = c.toNat + 32 :=
      toNat_ofNat_small _ (by omega)
    rw [if_neg]
    omega
  · rw [if_neg h, if_neg h]

theorem mem_collapseWs {c : Char} :
    ∀ {z : List Char}, c ∈ collapseWs z → c = ' ' ∨ (c ∈ z ∧ ¬isPySpace c = true) := by
  intro z
  induction z using collapseWs.induct with
  | case1 => simp [collapseWs]
  | case2 d hd =>
    rw [collapseWs, if_pos hd]
    intro h
    exact Or.inl (List.mem_singleton.mp h)
  | case3 d hd =>
    rw [collapseWs, if_neg hd]
    intro h
    rcases List.mem_singleton.mp h with rfl
    exact Or.inr ⟨List.mem_singleton_self _, hd⟩
  | case4 d e rest hd he ih =>
    rw [collapseWs, if_pos hd, if_pos he]
    intro h
    rcases ih h with h1 | ⟨h2, h3⟩
    · exact Or.inl h1
    · exact Or.inr ⟨List.mem_cons_of_mem _ h2, h3⟩
  | case5 d e rest hd he ih =>
    rw [collapseWs, if_pos hd, if_neg he]
    intro h
    rcases List.mem_cons.mp h with rfl | h1
    · exact Or.inl rfl
    · rcases ih h1 with h2 | ⟨h3, h4⟩
      · exact Or.inl h2
      · exact Or.inr ⟨List.mem_cons_of_mem _ h3, h4⟩
  | case6 d e rest hd ih =>
    rw [collapseWs, if_neg hd]
    intro h
    rcases List.mem_cons.mp h with rfl | h1
    · exact Or.inr ⟨List.mem_cons_self _ _, hd⟩
    · rcases ih h1 with h2 | ⟨h3, h4⟩
      · exact Or.inl h2
      · exact Or.inr ⟨List.mem_cons_of_mem _ h3, h4⟩

theorem collapseWs_head_nonspace (d : Char) (rest : List Char) (hd : ¬isPySpace d = true) :
    (collapseWs (d :: rest)).head? = some d := by
  match rest with
  | [] => rw [collapseWs, if_neg hd]; rfl
  | e :: rest => rw [collapseWs, if_neg hd]; rfl

theorem collapseWs_chain (z : List Char) :
    (collapseWs z).Chain' fun a b => ¬(isPySpace a = true ∧ isPySpace b = true) := by
  induction z using collapseWs.induct with
  | case1 => simp [collapseWs]
  | case2 d hd => rw [collapseWs, if_pos hd]; simp
  | case3 d hd => rw [collapseWs, if_neg hd]; simp
  | case4 d e rest hd he ih => rw [collapseWs, if_pos hd, if_pos he]; exact ih
  | case5 d e rest hd he ih =>
    rw [collapseWs, if_pos hd, if_neg he]
    rw [List.chain'_cons']
    refine ⟨?_, ih⟩
    intro y hy
    rw [collapseWs_head_nonspace e rest he] at hy
    rcases Option.mem_some_iff.mp hy with rfl
    exact fun hc => he hc.2
  | case6 d e rest hd ih =>
    rw [collapseWs, if_neg hd]
    rw [List.chain'_cons']
    refine ⟨?_, ih⟩
    intro y _
    exact fun hc => hd hc.1

theorem collapseWs_of_collapsed (z : List Char)
    (hsp : ∀ c ∈ z, isPySpace c = true → c = ' ')
    (hch : z.Chain' fun a b => ¬(isPySpace a = true ∧ isPySpace b = true)) :
    collapseWs z = z := by
  induction z using collapseWs.induct with
  | case1 => rfl
  | case2 d hd =>
    rw [collapseWs, if_pos hd, hsp d (List.mem_singleton_self d) hd]
  | case3 d hd => rw [collapseWs, if_neg hd]
  | case4 d e rest hd he ih =>
    exact absurd ⟨hd, he⟩ ((List.chain'_cons'.mp hch).1 e rfl)
  | case5 d e rest hd he ih =>
    rw [collapseWs, if_pos hd, if_neg he,
      ih (fun c hc h => hsp c (List.mem_cons_of_mem d hc) h) (List.chain'_cons'.mp hch).2,
      hsp d (List.mem_cons_self d _) hd]
  | case6 d e rest hd ih =>
    rw [collapseWs, if_neg hd,
      ih (fun c hc h => hsp c (List.mem_cons_of_mem d hc) h) (List.chain'_cons'.mp hch).2]

theorem chain'_dropWhile {α : Type} {R : α → α → Prop} (p : α → Bool) {l : List α}
    (h : l.Chain' R) : (l.dropWhile p).Chain' R := by
  induction l with
  | nil => simp
  | cons a l ih =>
    rw [List.dropWhile_cons]
    split
    · exact ih h.tail
    · exact h

theorem chain'_reverse_of {α : Type} {R : α → α → Prop} {l : List α}
    (hs : ∀ a b, R a b → R b a) (h : l.Chain' R) : l.reverse.Chain' R := by
  rw [List.chain'_reverse]
  exact h.imp fun a b hab => hs a b hab

theorem chain'_pyStripL {R : Char → Char → Prop} {l : List Char}
    (hs : ∀ a b, R a b → R b a) (h : l.Chain' R) : (pyStripL l).Chain' R := by
  rw [pyStripL]
  exact chain'_reverse_of hs (chain'_dropWhile _ (chain'_reverse_of hs (chain'_dropWhile _ h)))

theorem mem_pyStripL {c : Char} {l : List Char} (h : c ∈ pyStripL l) : c ∈ l := by
  rw [pyStripL, List.mem_reverse] at h
  have h1 := List.dropWhile_subset _ h
  rw [List.mem_reverse] at h1
  exact List.dropWhile_subset _ h1

theorem mem_normalizeL {c : Char} {l : List Char} (h : c ∈ normalizeL l) :
    lowerChar c = c ∧ (isWordChar c = true ∨ isPySpace c = true) := by
  rcases mem_collapseWs h with rfl | ⟨h1, _⟩
  · exact ⟨by decide, Or.inr (by decide)⟩
  · have h2 := List.mem_filter.mp h1
    have h3 := mem_pyStripL h2.1
    constructor
    · rcases List.mem_map.mp h3 with ⟨c0, _, rfl⟩
      exact lowerChar_lowerChar c0
    · have h4 := h2.2
      simp only [decide_eq_true_eq] at h4
      exact h4

theorem map_lowerChar_normalizeL (l : List Char) :
    (normalizeL l).map lowerChar = normalizeL l :=
  (List.map_congr_left fun _ hc => (mem_normalizeL hc).1).trans (List.map_id' _)

theorem normalizeL_normalizeL (l : List Char) :
    normalizeL (normalizeL l) = pyStripL (normalizeL l) := by
  have hsp : ∀ c ∈ normalizeL l, isPySpace c = true → c = ' ' := by
    intro c hc hspc
    rcases mem_collapseWs hc with rfl | ⟨_, hns⟩
    · rfl
    · exact absurd hspc hns
  have hch : (normalizeL l).Chain' fun a b => ¬(isPySpace a = true ∧ isPySpace b = true) :=
    collapseWs_chain _
  have hfil : (pyStripL (normalizeL l)).filter (fun c => isWordChar c ∨ isPySpace c) =
      pyStripL (normalizeL l) := by
    refine List.filter_eq_self.mpr ?_
    intro a ha
    simpa using (mem_normalizeL (mem_pyStripL ha)).2
  show collapseWs ((pyStripL ((normalizeL l).map lowerChar)).filter
      fun c => isWordChar c ∨ isPySpace c) = pyStripL (normalizeL l)
  rw [map_lowerChar_normalizeL, hfil]
  exact collapseWs_of_collapsed _ (fun c hc h => hsp c (mem_pyStripL hc) h)
    (chain'_pyStripL (fun a b hab h => hab ⟨h.2, h.1⟩) hch)

/-- C4 amended: `normalize` is idempotent only up to a final strip;
`normalize(normalize(x))` equals `normalize(x)` with its leading/trailing
whitespace stripped, for every string `x`.  (Removing a punctuation
character can expose edge whitespace, because the code strips *before*
removing non-word characters; a second application removes it.) -/
theorem normalize_normalize_eq_strip_normalize (s : String) :
    normalize (normalize s) = pyStrip (normalize s) :=
  congrArg String.mk (normalizeL_normalizeL s.data)

end App

namespace App

/-! ## Digit and integer-parsing lemmas (for the round-trip claim) -/

theorem digitChar_isDigit {a : Nat} (h : a ≤ 9) : (Nat.digitChar a).isDigit = true := by
  interval_cases a <;> decide

theorem digitVal_digitChar {a : Nat} (h : a ≤ 9) : digitVal (Nat.digitChar a) = a := by
  interval_cases a <;> decide

theorem isDigit_ne_comma {c : Char} (h : c.isDigit = true) : c ≠ ',' := by
  intro hc; subst hc; exact absurd h (by decide)

theorem isDigit_ne_dot {c : Char} (h : c.isDigit = true) : c ≠ '.' := by
  intro hc; subst hc; exact absurd h (by decide)

theorem isDigit_ne_colon {c : Char} (h : c.isDigit = true) : c ≠ ':' := by
  intro hc; subst hc; exact absurd h (by decide)

theorem isDigit_ne_minus {c : Char} (h : c.isDigit = true) : c ≠ '-' := by
  intro hc; subst hc; exact absurd h (by decide)

theorem isDigit_ne_plus {c : Char} (h : c.isDigit = true) : c ≠ '+' := by
  intro hc; subst hc; exact absurd h (by decide)

theorem isPySpace_of_isDigit {c : Char} (h : c.isDigit = true) : isPySpace c = false := by
  cases hps : isPySpace c with
  | false => rfl
  | true =>
    simp only [isPySpace, decide_eq_true_eq] at hps
    rcases hps with hc | hc | hc | hc | hc | hc <;> (subst hc; exact absurd h (by decide))

theorem dropWhile_isPySpace_of_digits {l : List Char} (h : ∀ c ∈ l, c.isDigit = true) :
    l.dropWhile isPySpace = l := by
  match l with
  | [] => rfl
  | c :: rest =>
    rw [List.dropWhile_cons, if_neg]
    rw [isPySpace_of_isDigit (h c (List.mem_cons_self c rest))]
    simp

theorem pyStripL_of_digits {l : List Char} (h : ∀ c ∈ l, c.isDigit = true) :
    pyStripL l = l := by
  rw [pyStripL, dropWhile_isPySpace_of_digits h,
    dropWhile_isPySpace_of_digits (fun c hc => h c (List.mem_reverse.mp hc)),
    List.reverse_reverse]

theorem pyIntOpt_digits {l : List Char} (hne : l ≠ []) (hd : ∀ c ∈ l, c.isDigit = true) :
    pyIntOpt l = some ((digitsVal l : Nat) : Int) := by
  obtain ⟨c0, rest, rfl⟩ := List.exists_cons_of_ne_nil hne
  have hc0 := hd c0 (List.mem_cons_self c0 rest)
  rw [pyIntOpt, pyStripL_of_digits hd]
  rw [List.headD_cons]
  rw [if_neg (isDigit_ne_minus hc0), if_neg (isDigit_ne_plus hc0), if_pos]
  refine ⟨hne, ?_⟩
  rw [List.all_eq_true]
  exact hd

end App

namespace App

theorem splitOnChar_not_mem {sep : Char} {xs : List Char} (h : sep ∉ xs) :
    splitOnChar sep xs = [xs] := by
  induction xs with
  | nil => rfl
  | cons c rest ih =>
    rw [splitOnChar, if_neg (by rintro rfl; exact h (List.mem_cons_self _ _)),
      ih (fun hm => h (List.mem_cons_of_mem c hm))]

theorem splitOnChar_append {sep : Char} {xs ys : List Char} (h : sep ∉ xs) :
    splitOnChar sep (xs ++ sep :: ys) = xs :: splitOnChar sep ys := by
  induction xs with
  | nil => rw [List.nil_append, splitOnChar, if_pos rfl]
  | cons c rest ih =>
    rw [List.cons_append, splitOnChar,
      if_neg (by rintro rfl; exact h (List.mem_cons_self _ _)),
      ih (fun hm => h (List.mem_cons_of_mem c hm))]

theorem natDigitsL_small {n : Nat} (h : n < 10) : natDigitsL n = [Nat.digitChar n] := by
  rw [natDigitsL]
  show natDigitsFuel (199 + 1) n = _
  rw [natDigitsFuel, if_pos h]

theorem natDigitsL_two {n : Nat} (h1 : 10 ≤ n) (h2 : n ≤ 99) :
    natDigitsL n = [Nat.digitChar (n / 10), Nat.digitChar (n % 10)] := by
  rw [natDigitsL]
  show natDigitsFuel (199 + 1) n = _
  rw [natDigitsFuel, if_neg (by omega)]
  show natDigitsFuel (198 + 1) (n / 10) ++ _ = _
  rw [natDigitsFuel, if_pos (by omega)]
  rfl

theorem natDigitsL_three {n : Nat} (h1 : 100 ≤ n) (h2 : n ≤ 999) :
    natDigitsL n =
      [Nat.digitChar (n / 100), Nat.digitChar (n / 10 % 10), Nat.digitChar (n % 10)] := by
  rw [natDigitsL]
  show natDigitsFuel (199 + 1) n = _
  rw [natDigitsFuel, if_neg (by omega)]
  show natDigitsFuel (198 + 1) (n / 10) ++ _ = _
  rw [natDigitsFuel, if_neg (by omega)]
  show (natDigitsFuel (197 + 1) (n / 10 / 10) ++ _) ++ _ = _
  rw [natDigitsFuel, if_pos (by omega), Nat.div_div_eq_div_mul]
  rfl

theorem fmtPad2_eq {n : Nat} (h : n ≤ 99) :
    fmtPad 2 (n : Int) = [Nat.digitChar (n / 10), Nat.digitChar (n % 10)] := by
  rw [fmtPad, if_neg (by omega), Int.toNat_natCast]
  by_cases h10 : n < 10
  · rw [natDigitsL_small h10, leftPad]
    have hd : n / 10 = 0 := Nat.div_eq_of_lt h10
    have hm : n % 10 = n := Nat.mod_eq_of_lt h10
    rw [hd, hm]
    rfl
  · rw [natDigitsL_two (by omega) h, leftPad]
    rfl

theorem fmtPad3_eq {n : Nat} (h : n ≤ 999) :
    fmtPad 3 (n : Int) =
      [Nat.digitChar (n / 100), Nat.digitChar (n / 10 % 10), Nat.digitChar (n % 10)] := by
  rw [fmtPad, if_neg (by omega), Int.toNat_natCast]
  by_cases h10 : n < 10
  · rw [natDigitsL_small h10, leftPad]
    have h100 : n / 100 = 0 := Nat.div_eq_of_lt (by omega)
    have hd : n / 10 = 0 := Nat.div_eq_of_lt h10
    have hm : n % 10 = n := Nat.mod_eq_of_lt h10
    rw [h100, hd, hm]
    rfl
  · by_cases h99 : n ≤ 99
    · rw [natDigitsL_two (by omega) h99, leftPad]
      have h100 : n / 100 = 0 := Nat.div_eq_of_lt (by omega)
      have hd : n / 10 % 10 = n / 10 := Nat.mod_eq_of_lt (by omega)
      rw [h100, hd]
      rfl
    · rw [natDigitsL_three (by omega) h, leftPad]
      rfl

theorem digitsVal_two {a b : Nat} (ha : a ≤ 9) (hb : b ≤ 9) :
    digitsVal [Nat.digitChar a, Nat.digitChar b] = 10 * a + b := by
  simp only [digitsVal, List.foldl, digitVal_digitChar ha, digitVal_digitChar hb]
  omega

theorem digitsVal_three {a b c : Nat} (ha : a ≤ 9) (hb : b ≤ 9) (hc : c ≤ 9) :
    digitsVal [Nat.digitChar a, Nat.digitChar b, Nat.digitChar c] =
      100 * a + 10 * b + c := by
  simp only [digitsVal, List.foldl, digitVal_digitChar ha, digitVal_digitChar hb,
    digitVal_digitChar hc]
  omega

end App

namespace App

theorem fmtPad2_digits {n : Nat} (h : n ≤ 99) :
    ∀ c ∈ fmtPad 2 (n : Int), c.isDigit = true := by
  rw [fmtPad2_eq h]
  intro c hc
  rcases List.mem_cons.mp hc with rfl | hc
  · exact digitChar_isDigit (by omega)
  · rcases List.mem_cons.mp hc with rfl | hc
    · exact digitChar_isDigit (by omega)
    · simp at hc

theorem fmtPad3_digits {n : Nat} (h : n ≤ 999) :
    ∀ c ∈ fmtPad 3 (n : Int), c.isDigit = true := by
  rw [fmtPad3_eq h]
  intro c hc
  rcases List.mem_cons.mp hc with rfl | hc
  · exact digitChar_isDigit (by omega)
  · rcases List.mem_cons.mp hc with rfl | hc
    · exact digitChar_isDigit (by omega)
    · rcases List.mem_cons.mp hc with rfl | hc
      · exact digitChar_isDigit (by omega)
      · simp at hc

theorem pyIntOpt_fmtPad2 {n : Nat} (hn : n ≤ 99) :
    pyIntOpt (fmtPad 2 (n : Int)) = some (n : Int) := by
  rw [pyIntOpt_digits (by rw [fmtPad2_eq hn]; simp) (fmtPad2_digits hn)]
  rw [fmtPad2_eq hn, digitsVal_two (by omega) (by omega)]
  congr 1
  omega

theorem pyIntOpt_fmtPad3 {n : Nat} (hn : n ≤ 999) :
    pyIntOpt (fmtPad 3 (n : Int)) = some (n : Int) := by
  rw [pyIntOpt_digits (by rw [fmtPad3_eq hn]; simp) (fmtPad3_digits hn)]
  rw [fmtPad3_eq hn, digitsVal_three (by omega) (by omega) (by omega)]
  congr 1
  omega

theorem map_comma_fix {l : List Char} (hd : ∀ c ∈ l, c.isDigit = true) :
    l.map (fun c => if c = ',' then '.' else c) = l :=
  (List.map_congr_left fun c hc => if_neg (isDigit_ne_comma (hd c hc))).trans
    (List.map_id' l)

end App

namespace App

theorem parseTS_renderTs (h m s ms : Nat) (hh : h ≤ 99) (hm : m ≤ 59) (hs : s ≤ 59)
    (hms : ms ≤ 999) :
    parseTS (renderTs h m s ms) = some ((h : Int), (m : Int), (s : Int), (ms : Int)) := by
  have dh := fmtPad2_digits (show h ≤ 99 by omega)
  have dm := fmtPad2_digits (show m ≤ 99 by omega)
  have ds := fmtPad2_digits (show s ≤ 99 by omega)
  have dms := fmtPad3_digits hms
  have hdata : (renderTs h m s ms).data =
      ((fmtPad 2 (h:Int) ++ ':' :: fmtPad 2 (m:Int)) ++ ':' :: fmtPad 2 (s:Int)) ++
        ',' :: fmtPad 3 (ms:Int) := rfl
  have hl : (renderTs h m s ms).data.map (fun c => if c = ',' then '.' else c) =
      (fmtPad 2 (h:Int) ++ ':' :: (fmtPad 2 (m:Int) ++ ':' :: fmtPad 2 (s:Int))) ++
        '.' :: fmtPad 3 (ms:Int) := by
    rw [hdata]
    simp only [List.map_append, List.map_cons]
    rw [map_comma_fix dh, map_comma_fix dm, map_comma_fix ds, map_comma_fix dms]
    simp [List.append_assoc]
  have hXdot : '.' ∉ fmtPad 2 (h:Int) ++ ':' :: (fmtPad 2 (m:Int) ++ ':' :: fmtPad 2 (s:Int)) := by
    intro hmem
    simp only [List.mem_append, List.mem_cons] at hmem
    rcases hmem with hA | hc | hB | hc | hC
    · exact isDigit_ne_dot (dh _ hA) rfl
    · exact absurd hc (by decide)
    · exact isDigit_ne_dot (dm _ hB) rfl
    · exact absurd hc (by decide)
    · exact isDigit_ne_dot (ds _ hC) rfl
  have hP3dot : '.' ∉ fmtPad 3 (ms:Int) := fun hmem => isDigit_ne_dot (dms _ hmem) rfl
  have hcolA : ':' ∉ fmtPad 2 (h:Int) := fun hmem => isDigit_ne_colon (dh _ hmem) rfl
  have hcolB : ':' ∉ fmtPad 2 (m:Int) := fun hmem => isDigit_ne_colon (dm _ hmem) rfl
  have hcolC : ':' ∉ fmtPad 2 (s:Int) := fun hmem => isDigit_ne_colon (ds _ hmem) rfl
  have hsplitDot : splitOnChar '.'
      ((fmtPad 2 (h:Int) ++ ':' :: (fmtPad 2 (m:Int) ++ ':' :: fmtPad 2 (s:Int))) ++
        '.' :: fmtPad 3 (ms:Int)) =
      [fmtPad 2 (h:Int) ++ ':' :: (fmtPad 2 (m:Int) ++ ':' :: fmtPad 2 (s:Int)),
        fmtPad 3 (ms:Int)] := by
    rw [splitOnChar_append hXdot, splitOnChar_not_mem hP3dot]
  have hsplitCol : splitOnChar ':'
      (fmtPad 2 (h:Int) ++ ':' :: (fmtPad 2 (m:Int) ++ ':' :: fmtPad 2 (s:Int))) =
      [fmtPad 2 (h:Int), fmtPad 2 (m:Int), fmtPad 2 (s:Int)] := by
    rw [splitOnChar_append hcolA, splitOnChar_append hcolB, splitOnChar_not_mem hcolC]
  have hcontains : ((fmtPad 2 (h:Int) ++ ':' :: (fmtPad 2 (m:Int) ++ ':' :: fmtPad 2 (s:Int))) ++
      '.' :: fmtPad 3 (ms:Int)).contains '.' = true :=
    List.elem_eq_true_of_mem (List.mem_append.mpr (Or.inr (List.mem_cons_self _ _)))
  have pA : pyIntOpt (fmtPad 2 (h:Int)) = some (h:Int) := pyIntOpt_fmtPad2 (by omega)
  have pB : pyIntOpt (fmtPad 2 (m:Int)) = some (m:Int) := pyIntOpt_fmtPad2 (by omega)
  have pC : pyIntOpt (fmtPad 2 (s:Int)) = some (s:Int) := pyIntOpt_fmtPad2 (by omega)
  have pD : pyIntOpt (fmtPad 3 (ms:Int)) = some (ms:Int) := pyIntOpt_fmtPad3 hms
  have hassoc : (fmtPad 2 (h:Int) ++ ':' :: (fmtPad 2 (m:Int) ++ ':' :: fmtPad 2 (s:Int))) ++
      '.' :: fmtPad 3 (ms:Int) =
      fmtPad 2 (h:Int) ++ ':' :: (fmtPad 2 (m:Int) ++ ':' :: (fmtPad 2 (s:Int) ++
        '.' :: fmtPad 3 (ms:Int))) := by
    simp [List.append_assoc]
  have hsplitDot2 : splitOnChar '.'
      (fmtPad 2 (h:Int) ++ ':' :: (fmtPad 2 (m:Int) ++ ':' :: (fmtPad 2 (s:Int) ++
        '.' :: fmtPad 3 (ms:Int)))) =
      [fmtPad 2 (h:Int) ++ ':' :: (fmtPad 2 (m:Int) ++ ':' :: fmtPad 2 (s:Int)),
        fmtPad 3 (ms:Int)] := by
    rw [← hassoc, splitOnChar_append hXdot, splitOnChar_not_mem hP3dot]
  have hcontains2 : (fmtPad 2 (h:Int) ++ ':' :: (fmtPad 2 (m:Int) ++ ':' :: (fmtPad 2 (s:Int) ++
      '.' :: fmtPad 3 (ms:Int)))).contains '.' = true := by
    rw [← hassoc]
    exact hcontains
  unfold parseTS
  rw [hl]
  simp [hsplitDot, hsplitDot2, hsplitCol, pA, pB, pC, pD, hcontains, hcontains2]

end App

namespace App

set_option maxHeartbeats 1600000 in
theorem fmtQ_value (h m s ms : Nat) (hh : h ≤ 99) (hm : m ≤ 59) (hs : s ≤ 59)
    (hms : ms ≤ 999) :
    fmtQ ((h : ℚ) * 3600 + (m : ℚ) * 60 + (s : ℚ) + (ms : ℚ) / 1000) = renderTs h m s ms := by
  obtain ⟨q, hq⟩ : ∃ q : ℚ, q = (h : ℚ) * 3600 + (m : ℚ) * 60 + (s : ℚ) + (ms : ℚ) / 1000 :=
    ⟨_, rfl⟩
  rw [← hq]
  have hh' : (h:ℚ) ≤ 99 := by exact_mod_cast hh
  have hm' : (m:ℚ) ≤ 59 := by exact_mod_cast hm
  have hs' : (s:ℚ) ≤ 59 := by exact_mod_cast hs
  have hms' : (ms:ℚ) ≤ 999 := by exact_mod_cast hms
  have h0 : (0:ℚ) ≤ (h:ℚ) := Nat.cast_nonneg h
  have m0 : (0:ℚ) ≤ (m:ℚ) := Nat.cast_nonneg m
  have s0 : (0:ℚ) ≤ (s:ℚ) := Nat.cast_nonneg s
  have ms0 : (0:ℚ) ≤ (ms:ℚ) := Nat.cast_nonneg ms
  have hms1 : (0:ℚ) ≤ (ms:ℚ) / 1000 := by positivity
  have hms2 : (ms:ℚ) / 1000 < 1 := by
    rw [div_lt_one (by norm_num)]
    linarith
  have hq0 : 0 ≤ q := by rw [hq]; positivity
  have f1 : ⌊q / 3600⌋ = (h : Int) := by
    rw [Int.floor_eq_iff]
    push_cast
    constructor
    · rw [le_div_iff₀ (by norm_num : (0:ℚ) < 3600)]
      nlinarith [hq.le, hq.ge, hms1, hms2]
    · rw [div_lt_iff₀ (by norm_num : (0:ℚ) < 3600)]
      nlinarith [hq.le, hq.ge, hms1, hms2]
  have g1 : pyMod q 3600 = (m:ℚ) * 60 + (s:ℚ) + (ms:ℚ) / 1000 := by
    rw [pyMod, f1, hq]
    push_cast
    ring
  have f2 : ⌊((m:ℚ) * 60 + (s:ℚ) + (ms:ℚ) / 1000) / 60⌋ = (m : Int) := by
    rw [Int.floor_eq_iff]
    push_cast
    constructor
    · rw [le_div_iff₀ (by norm_num : (0:ℚ) < 60)]
      nlinarith [hq.le, hq.ge, hms1, hms2]
    · rw [div_lt_iff₀ (by norm_num : (0:ℚ) < 60)]
      nlinarith [hq.le, hq.ge, hms1, hms2]
  have f3 : ⌊q / 60⌋ = ((h : Int) * 60 + (m : Int)) := by
    rw [Int.floor_eq_iff]
    push_cast
    constructor
    · rw [le_div_iff₀ (by norm_num : (0:ℚ) < 60)]
      nlinarith [hq.le, hq.ge, hms1, hms2]
    · rw [div_lt_iff₀ (by norm_num : (0:ℚ) < 60)]
      nlinarith [hq.le, hq.ge, hms1, hms2]
  have g2 : pyMod q 60 = (s:ℚ) + (ms:ℚ) / 1000 := by
    rw [pyMod, f3, hq]
    push_cast
    ring
  have t1 : pyTrunc (pyMod q 60) = (s : Int) := by
    rw [g2, pyTrunc, if_neg (by nlinarith)]
    rw [Int.floor_eq_iff]
    push_cast
    constructor
    · nlinarith
    · nlinarith
  have t2 : pyTrunc q = ((h : Int) * 3600 + (m : Int) * 60 + (s : Int)) := by
    rw [pyTrunc, if_neg (by nlinarith [hq.le, hq.ge, hms1, hms2])]
    rw [Int.floor_eq_iff]
    push_cast
    constructor
    · nlinarith
    · nlinarith
  have harg : (q - ((pyTrunc q : Int) : ℚ)) * 1000 = (ms : ℚ) := by
    rw [t2, hq]
    push_cast
    ring
  have t3 : pyTrunc ((q - ((pyTrunc q : Int) : ℚ)) * 1000) = (ms : Int) := by
    rw [harg, pyTrunc, if_neg (by nlinarith)]
    exact_mod_cast Int.floor_natCast ms
  show String.mk (fmtPad 2 ⌊q / 3600⌋ ++ ':' :: fmtPad 2 ⌊pyMod q 3600 / 60⌋ ++
    ':' :: fmtPad 2 (pyTrunc (pyMod q 60)) ++
    ',' :: fmtPad 3 (pyTrunc ((q - ((pyTrunc q : Int) : ℚ)) * 1000))) = renderTs h m s ms
  rw [f1, g1, f2, t1, t3]
  rfl

/-! ## Claim theorems for the timestamp round trip -/

set_option maxRecDepth 8000 in
/-- C5 is false of the code: the round trip runs through binary64
floating point, and `fmt` truncates `(sec - int(sec)) * 1000` toward
zero.  For `t = "00:00:01,001"`, `timestamp_to_seconds` returns the
double nearest `1.001` (slightly below it); `(sec - 1) * 1000` evaluates
to `0.9999999999998899`, which truncates to `0`, so the formatter returns
`"00:00:01,000" ≠ t`.  (`tsFloat` / `fmtFloat` are the binary64 models of
the two functions; the kernel evaluates the rounding exactly.) -/
theorem roundtrip_float_counterexample :
    fmtFloat (tsFloat "00:00:01,001") = "00:00:01,000" ∧
      ("00:00:01,000" : String) ≠ "00:00:01,001" := by
  constructor
  · decide
  · decide

/-- C5 amended: under exact rational arithmetic the round trip does hold:
for every canonical `HH:MM:SS,mmm` string (hours two digits, minutes and
seconds below 60, zero-padded, comma separator),
`fmt(timestamp_to_seconds(t)) = t`.  The code's binary64 arithmetic
violates it only by occasionally returning a millisecond field one lower
(e.g. `,001 → ,000`). -/
theorem roundtrip_exact_rational (h m s ms : Nat) (hh : h ≤ 99) (hm : m ≤ 59)
    (hs : s ≤ 59) (hms : ms ≤ 999) :
    fmtQ (timestamp_to_seconds (renderTs h m s ms)) = renderTs h m s ms := by
  have hv := fmtQ_value h m s ms hh hm hs hms
  unfold timestamp_to_seconds
  rw [parseTS_renderTs h m s ms hh hm hs hms]
  show fmtQ (((h : Int) : ℚ) * 3600 + ((m : Int) : ℚ) * 60 + ((s : Int) : ℚ) +
    ((ms : Int) : ℚ) / 1000) = renderTs h m s ms
  have harg : ((h : Int) : ℚ) * 3600 + ((m : Int) : ℚ) * 60 + ((s : Int) : ℚ) +
      ((ms : Int) : ℚ) / 1000 =
      (h : ℚ) * 3600 + (m : ℚ) * 60 + (s : ℚ) + (ms : ℚ) / 1000 := by
    push_cast
    ring
  rw [harg]
  exact hv

theorem roundtrip_exact_rational_witness :
    (1 ≤ 99 ∧ 2 ≤ 59 ∧ 3 ≤ 59 ∧ 45 ≤ 999) ∧
      fmtQ (timestamp_to_seconds (renderTs 1 2 3 45)) = renderTs 1 2 3 45 :=
  ⟨by decide, roundtrip_exact_rational 1 2 3 45 (by decide) (by decide) (by decide) (by decide)⟩

end App

namespace App

/-! ## Stability of the final sort -/

theorem filter_orderedInsert (k : ℚ) (a : Seg) (l : List Seg) :
    (List.orderedInsert startLe a l).filter (fun x => x.start_seconds = k) =
      if a.start_seconds = k then a :: l.filter (fun x => x.start_seconds = k)
      else l.filter (fun x => x.start_seconds = k) := by
  induction l with
  | nil =>
    rw [List.orderedInsert]
    by_cases hk : a.start_seconds = k <;> simp [List.filter_cons, hk]
  | cons b rest ih =>
    rw [List.orderedInsert]
    by_cases hle : startLe a b
    · rw [if_pos hle]
      by_cases hk : a.start_seconds = k <;> simp [List.filter_cons, hk]
    · rw [if_neg hle]
      by_cases hk : a.start_seconds = k
      · have hbne : ¬(b.start_seconds = k) := fun hb =>
          hle (show startLe a b from le_of_eq (hk.trans hb.symm))
        simp [List.filter_cons, hk, hbne, ih]
      · simp [List.filter_cons, hk, ih]

theorem filter_insertionSort (k : ℚ) (l : List Seg) :
    (List.insertionSort startLe l).filter (fun x => x.start_seconds = k) =
      l.filter (fun x => x.start_seconds = k) := by
  induction l with
  | nil => rfl
  | cons a rest ih =>
    rw [List.insertionSort, filter_orderedInsert]
    by_cases hk : a.start_seconds = k
    · rw [if_pos hk, ih, List.filter_cons]
      simp [hk]
    · rw [if_neg hk, ih, List.filter_cons]
      simp [hk]

/-- C7: every segment sequence the system returns is ordered
non-decreasing by `startSeconds`, stably: both subtitle parsers and the
transcript-API converter end in a stable sort by `start_seconds` (their
output filtered to any key value `k` equals the pre-sort, parse-order
list filtered to `k`), and `nuclear_cleanup` maps sorted input to sorted
output (its output is a sublist, hence also tie-stable). -/
theorem returned_sequences_sorted_stable (content : String)
    (chunks : List (ℚ × ℚ × String)) (segs : List Seg) (k : ℚ) :
    List.Sorted startLe (parse_srt content) ∧
      ((parse_srt content).filter (fun x => x.start_seconds = k) =
        (parse_srt_raw content).filter (fun x => x.start_seconds = k)) ∧
      List.Sorted startLe (parse_vtt content) ∧
      ((parse_vtt content).filter (fun x => x.start_seconds = k) =
        (parse_vtt_raw content).filter (fun x => x.start_seconds = k)) ∧
      List.Sorted startLe (ytaToSegments chunks) ∧
      (List.Sorted startLe segs → List.Sorted startLe (nuclear_cleanup segs)) :=
  ⟨List.sorted_insertionSort startLe _,
   filter_insertionSort k _,
   List.sorted_insertionSort startLe _,
   filter_insertionSort k _,
   List.sorted_insertionSort startLe _,
   fun hs => List.Pairwise.sublist (nuclear_cleanup_sublist segs) hs⟩

theorem returned_sequences_sorted_stable_witness :
    List.Sorted startLe (nuclear_cleanup [segK "a" 0, segK "b" 7]) :=
  (returned_sequences_sorted_stable "" [] [segK "a" 0, segK "b" 7] 0).2.2.2.2.2 (by decide)

end App
